import Mathlib

/-!
Design patterns in modern C++: filter (Open-Closed Principle) and HTML builder

A shallow embedding of `src/Chapter_1_Introduction/filter.cpp` and
`src/Part_1_Creational/Chapter_2_Builder/Builder.cpp`.

Modelling conventions.

* `std::vector<T>` is a `List T`; `push_back` / `emplace_back` append at the end.
* `Product*` is modelled by the product it points to: every pointer handled by
  the program is the address of a live `Product`, and the code only reads
  through it.
* A `Specification<T>` is an object with one virtual method `is_satisfied`;
  it is modelled by the (side-effect-free) function that method computes.
* `std::ostringstream` is a `String` accumulator, `oss << x` appends `x`,
  `std::endl` appends a newline.
* The `int indent` argument of `HtmlElement::str` is a depth: a natural number,
  taken in the range where `indent + 1` does not leave `int`.
* A member function that mutates `*this` takes the object's state and returns
  the state after the call; when the C++ function returns `*this` or `this`,
  that state is also what the returned handle denotes.
-/

namespace FilterCpp

/-- The enumeration `enum class Color { Red, Green, Blue }`. -/
inductive Color where
  | Red
  | Green
  | Blue
  deriving DecidableEq, Repr

/-- The enumeration `enum class Size { Small, Medium, Large }`. -/
inductive Size where
  | Small
  | Medium
  | Large
  deriving DecidableEq, Repr

/-- The record `struct Product { name_, color_, size_ }`. -/
structure Product where
  name_ : String
  color_ : Color
  size_ : Size
  deriving DecidableEq, Repr

/-- The type `ProductFilter::Items`, a vector of products. -/
abbrev Items := List Product

/-- The interface `Specification<T>`: the virtual method `is_satisfied`. -/
structure Specification (T : Type) where
  is_satisfied : T → Bool

/-- One iteration of the range-for of `BetterProductFilter::filter`:
`if (spec.is_satisfied(p)) result.push_back(p);`. -/
def BetterProductFilter.step (spec : Specification Product)
    (result : List Product) (p : Product) : List Product :=
  if spec.is_satisfied p then result ++ [p] else result

/-- The method `BetterProductFilter::filter`: start from the empty vector
`result`, visit `items` front to back, push every satisfying item at the back
of `result`, return `result`. -/
def BetterProductFilter.filter (items : List Product)
    (spec : Specification Product) : List Product :=
  items.foldl (BetterProductFilter.step spec) []

/-- The class `ColorSpecification`: `item->color_ == color`. -/
def ColorSpecification (color : Color) : Specification Product :=
  { is_satisfied := fun item => decide (item.color_ = color) }

/-- The class `SizeSpecification`: `item->size_ == size`. -/
def SizeSpecification (size : Size) : Specification Product :=
  { is_satisfied := fun item => decide (item.size_ = size) }

/-- The class template `AndSpecification<T>`:
`first.is_satisfied(item) && second.is_satisfied(item)`. -/
def AndSpecification {T : Type} (first second : Specification T) : Specification T :=
  { is_satisfied := fun item => first.is_satisfied item && second.is_satisfied item }

/-- The method `ProductFilter::byColor`. -/
def ProductFilter.byColor (items : Items) (color : Color) : Items :=
  items.foldl (fun result i => if i.color_ = color then result ++ [i] else result) []

/-- The method `ProductFilter::bySize`. -/
def ProductFilter.bySize (items : Items) (size : Size) : Items :=
  items.foldl (fun result i => if i.size_ = size then result ++ [i] else result) []

/-- The method `ProductFilter::byColorAndSize`. -/
def ProductFilter.byColorAndSize (items : Items) (color : Color) (size : Size) : Items :=
  items.foldl
    (fun result i =>
      if decide (i.size_ = size) && decide (i.color_ = color) then result ++ [i] else result)
    []

/-- The six products of `main`, lines 126-131. -/
def p1 : Product := ⟨"small_sofa", Color.Green, Size.Small⟩
def p2 : Product := ⟨"big_sofa", Color.Red, Size.Large⟩
def p3 : Product := ⟨"green_chair", Color.Green, Size.Medium⟩
def p4 : Product := ⟨"red_chair", Color.Red, Size.Medium⟩
def p5 : Product := ⟨"desk", Color.Blue, Size.Medium⟩
def p6 : Product := ⟨"big_desk", Color.Green, Size.Large⟩

/-- The vector `products` of `main`, line 133. -/
def products : Items := [p1, p2, p3, p4, p5, p6]

/-- The three products of `main`, lines 146-148. -/
def apple : Product := ⟨"Apple", Color.Green, Size.Small⟩
def tree : Product := ⟨"Tree", Color.Green, Size.Large⟩
def house : Product := ⟨"House", Color.Blue, Size.Large⟩

/-- The vector `all` of `main`, line 150. -/
def all : List Product := [apple, tree, house]

/-- The specification `green` of `main`, line 141. -/
def green : Specification Product := ColorSpecification Color.Green

/-- The specification `large` of `main`, line 154. -/
def large : Specification Product := SizeSpecification Size.Large

/-- The specification `green_and_large` of `main`, line 155. -/
def green_and_large : Specification Product := AndSpecification large green

end FilterCpp

namespace BuilderCpp

/-- The record `struct HtmlElement { name, text, elements }`; a node owns the
vector of its children. -/
inductive HtmlElement where
  | mk (name : String) (text : String) (elements : List HtmlElement)
  deriving Repr

/-- The member `HtmlElement::name`. -/
def HtmlElement.name : HtmlElement → String
  | .mk n _ _ => n

/-- The member `HtmlElement::text`. -/
def HtmlElement.text : HtmlElement → String
  | .mk _ t _ => t

/-- The member `HtmlElement::elements`. -/
def HtmlElement.elements : HtmlElement → List HtmlElement
  | .mk _ _ es => es

/-- The member `const size_t indent_size = 2`, the same in every node. -/
def indent_size : Nat := 2

/-- The default constructor `HtmlElement() {}`: empty strings, no children. -/
def HtmlElement.new_default : HtmlElement := .mk "" "" []

/-- The constructor `HtmlElement(name, text)`: no children. -/
def HtmlElement.new (name text : String) : HtmlElement := .mk name text []

mutual
/-- The method `HtmlElement::str(int indent)`, lines 27-39. -/
def HtmlElement.str : HtmlElement → Nat → String
  | .mk name text elements, indent =>
    let oss := ""
    let i := String.replicate (indent_size * indent) ' '
    let oss := oss ++ i ++ "<" ++ name ++ ">" ++ "\n"
    let oss :=
      if text.length > 0 then
        oss ++ String.replicate (indent_size * (indent + 1)) ' ' ++ text ++ "\n"
      else oss
    let oss := HtmlElement.str_loop elements indent oss
    let oss := oss ++ i ++ "</" ++ name ++ ">" ++ "\n"
    oss
/-- The loop `for (const auto& e : elements) oss << e.str(indent + 1);` over the
remaining children, with the stream contents so far. -/
def HtmlElement.str_loop : List HtmlElement → Nat → String → String
  | [], _, oss => oss
  | e :: es, indent, oss => HtmlElement.str_loop es indent (oss ++ e.str (indent + 1))
end

/-- The record `struct HtmlBuilder { HtmlElement root; }`. -/
structure HtmlBuilder where
  root : HtmlElement

/-- The constructor `HtmlBuilder(root_name)`: `root` is default-constructed,
then `root.name = root_name`. -/
def HtmlBuilder.new (root_name : String) : HtmlBuilder :=
  let root := HtmlElement.new_default
  { root := .mk root_name root.text root.elements }

/-- The method `HtmlBuilder::add_child`: build the element `e`, append a copy
at the back of `root.elements`, return `*this`. -/
def HtmlBuilder.add_child (self : HtmlBuilder) (child_name child_text : String) :
    HtmlBuilder :=
  let e := HtmlElement.new child_name child_text
  { root := .mk self.root.name self.root.text (self.root.elements ++ [e]) }

/-- The method `HtmlBuilder::add_child_2`: the same update, returning `this`. -/
def HtmlBuilder.add_child_2 (self : HtmlBuilder) (child_name child_text : String) :
    HtmlBuilder :=
  let e := HtmlElement.new child_name child_text
  { root := .mk self.root.name self.root.text (self.root.elements ++ [e]) }

/-- The method `HtmlBuilder::str`: `root.str()`, the indent defaulting to 0. -/
def HtmlBuilder.str (self : HtmlBuilder) : String := self.root.str 0

/-- The static method `HtmlElement::build`: a fresh `HtmlBuilder(root_name)`. -/
def HtmlElement.build (root_name : String) : HtmlBuilder :=
  HtmlBuilder.new root_name

/-- A chain `b.add_child(n1, t1).add_child(n2, t2)...`: each call is made on the
handle the previous one returned. -/
def add_child_chain (b : HtmlBuilder) (calls : List (String × String)) : HtmlBuilder :=
  calls.foldl (fun self c => self.add_child c.1 c.2) b

/-- A chain `b->add_child_2(n1, t1)->add_child_2(n2, t2)...`: each call is made
through the pointer the previous one returned. -/
def add_child_2_chain (b : HtmlBuilder) (calls : List (String × String)) : HtmlBuilder :=
  calls.foldl (fun self c => self.add_child_2 c.1 c.2) b

/-- The method `HtmlBuilder::str` as a state transformer: the string it returns
and the state of the builder after the call. Its body is the one call
`root.str()` of a `const` method, which assigns to no member. -/
def HtmlBuilder.str_run (self : HtmlBuilder) : String × HtmlBuilder :=
  (self.root.str 0, self)

/-- One call of a mutating method of `HtmlBuilder`, with its arguments. -/
inductive BuilderCall where
  | add_child (child_name child_text : String)
  | add_child_2 (child_name child_text : String)
  deriving Repr

/-- The effect of one call on the builder. -/
def HtmlBuilder.perform (self : HtmlBuilder) : BuilderCall → HtmlBuilder
  | .add_child n t => self.add_child n t
  | .add_child_2 n t => self.add_child_2 n t

/-- The builder reached from `HtmlBuilder(root_name)` by a sequence of calls,
made in order. -/
def reached (root_name : String) (calls : List BuilderCall) : HtmlBuilder :=
  calls.foldl HtmlBuilder.perform (HtmlBuilder.new root_name)

mutual
/-- The writes of `HtmlElement::str` that end in `std::endl`, in execution
order: the opening tag line, the text line when there is one, the lines of the
children, the closing tag line. -/
def HtmlElement.str_emissions : HtmlElement → Nat → List String
  | .mk name text elements, indent =>
    let i := String.replicate (indent_size * indent) ' '
    [i ++ "<" ++ name ++ ">" ++ "\n"]
      ++ (if text.length > 0 then
            [String.replicate (indent_size * (indent + 1)) ' ' ++ text ++ "\n"]
          else [])
      ++ HtmlElement.str_emissions_loop elements indent
      ++ [i ++ "</" ++ name ++ ">" ++ "\n"]
/-- The writes made by the loop over the children. -/
def HtmlElement.str_emissions_loop : List HtmlElement → Nat → List String
  | [], _ => []
  | e :: es, indent => e.str_emissions (indent + 1) ++ HtmlElement.str_emissions_loop es indent
end

mutual
/-- The height of a tree: 1 for a node without children. -/
def HtmlElement.height : HtmlElement → Nat
  | .mk _ _ elements => HtmlElement.height_list elements + 1
/-- The largest height among the trees of a list, 0 for the empty list. -/
def HtmlElement.height_list : List HtmlElement → Nat
  | [] => 0
  | e :: es => max e.height (HtmlElement.height_list es)
end

mutual
/-- The method `HtmlElement::str` run with a bound `fuel` on the depth of nested
calls: `none` when a call would exceed the bound. -/
def HtmlElement.str_fuel : Nat → HtmlElement → Nat → Option String
  | 0, _, _ => none
  | fuel + 1, .mk name text elements, indent =>
    let oss := ""
    let i := String.replicate (indent_size * indent) ' '
    let oss := oss ++ i ++ "<" ++ name ++ ">" ++ "\n"
    let oss :=
      if text.length > 0 then
        oss ++ String.replicate (indent_size * (indent + 1)) ' ' ++ text ++ "\n"
      else oss
    match HtmlElement.str_loop_fuel fuel elements indent oss with
    | none => none
    | some oss => some (oss ++ i ++ "</" ++ name ++ ">" ++ "\n")
/-- The loop over the children, each nested call made with the bound `fuel`. -/
def HtmlElement.str_loop_fuel : Nat → List HtmlElement → Nat → String → Option String
  | _, [], _, oss => some oss
  | fuel, e :: es, indent, oss =>
    match e.str_fuel fuel (indent + 1) with
    | none => none
    | some s => HtmlElement.str_loop_fuel fuel es indent (oss ++ s)
end

mutual
/-- No name and no text of the tree contains a newline character. -/
def HtmlElement.newline_free : HtmlElement → Bool
  | .mk name text elements =>
    decide ('\n' ∉ name.data) && decide ('\n' ∉ text.data)
      && HtmlElement.newline_free_list elements
/-- Every tree of the list is free of newline characters. -/
def HtmlElement.newline_free_list : List HtmlElement → Bool
  | [] => true
  | e :: es => e.newline_free && HtmlElement.newline_free_list es
end

/-- The characters of a text with `k` spaces put in front of every line: a line
starts at the first character and after every newline character. `at_start`
tells whether the next character starts a line. -/
def indent_chars (k : Nat) : Bool → List Char → List Char
  | _, [] => []
  | at_start, c :: cs =>
    (if at_start then List.replicate k ' ' else []) ++ c :: indent_chars k (c == '\n') cs

/-- The text `s` with `k` spaces put in front of each of its lines. -/
def indent_lines (k : Nat) (s : String) : String :=
  ⟨indent_chars k true s.data⟩

end BuilderCpp

/-! ## The filter and the specifications -/

namespace FilterCpp

/-- The loop of `BetterProductFilter::filter`, started from any vector `acc`,
leaves `acc` in front and appends the satisfying items in order. -/
theorem foldl_step_eq (spec : Specification Product) (items acc : List Product) :
    items.foldl (BetterProductFilter.step spec) acc
      = acc ++ items.filter spec.is_satisfied := by
  induction items generalizing acc with
  | nil => simp
  | cons p ps ih =>
    rw [List.foldl_cons, ih]
    by_cases h : spec.is_satisfied p = true
    · simp [BetterProductFilter.step, h]
    · simp [BetterProductFilter.step, h]

/-- The filter computes the list filter of its input by the predicate. -/
theorem filter_eq_list_filter (items : List Product) (spec : Specification Product) :
    BetterProductFilter.filter items spec = items.filter spec.is_satisfied := by
  simp [BetterProductFilter.filter, foldl_step_eq]

/-- The method `is_satisfied` of an `AndSpecification` is the conjunction of
the two operands. -/
theorem and_is_satisfied {T : Type} (a b : Specification T) (item : T) :
    (AndSpecification a b).is_satisfied item
      = (a.is_satisfied item && b.is_satisfied item) := rfl

/-- C1: for every sequence `items` and every specification `spec`,
`BetterProductFilter::filter(items, spec)` is the reference list filter of
`items` by `spec.is_satisfied`: the satisfying elements, in their original
order and multiplicity, and nothing else. -/
theorem C1_filter_is_reference_filter (items : List Product)
    (spec : Specification Product) :
    BetterProductFilter.filter items spec = List.filter spec.is_satisfied items :=
  filter_eq_list_filter items spec

/-- C3: filtering by `AndSpecification(P, Q)` equals filtering by `P` and
then by `Q`, and equals filtering by `Q` and then by `P`. -/
theorem C3_filter_and_is_sequential (S : List Product) (P Q : Specification Product) :
    BetterProductFilter.filter S (AndSpecification P Q)
        = BetterProductFilter.filter (BetterProductFilter.filter S P) Q
      ∧ BetterProductFilter.filter S (AndSpecification P Q)
        = BetterProductFilter.filter (BetterProductFilter.filter S Q) P := by
  simp only [filter_eq_list_filter, List.filter_filter]
  constructor
  · apply List.filter_congr
    intro x _
    rw [and_is_satisfied, Bool.and_comm]
  · apply List.filter_congr
    intro x _
    rw [and_is_satisfied]

/-- C5: the result of the filter is a sublist of the input (same relative
order), no element occurs more often in it than in the input, and every
element of it satisfies the specification. -/
theorem C5_filter_sublist_and_satisfied (S : List Product) (spec : Specification Product) :
    List.Sublist (BetterProductFilter.filter S spec) S
      ∧ (∀ e : Product, (BetterProductFilter.filter S spec).count e ≤ S.count e)
      ∧ (∀ e : Product, e ∈ BetterProductFilter.filter S spec → spec.is_satisfied e = true) := by
  rw [filter_eq_list_filter]
  refine ⟨List.filter_sublist S, ?_, ?_⟩
  · intro e
    exact (List.filter_sublist S).count_le e
  · intro e he
    exact (List.mem_filter.1 he).2

/-- C6: `AndSpecification(a, b).is_satisfied(item)` is true exactly when both
`a.is_satisfied(item)` and `b.is_satisfied(item)` are true; it is false as soon
as `a.is_satisfied(item)` is false, whatever `b` is. -/
theorem C6_and_specification_iff (a b : Specification Product) (item : Product) :
    ((AndSpecification a b).is_satisfied item = true
        ↔ (a.is_satisfied item = true ∧ b.is_satisfied item = true))
      ∧ (a.is_satisfied item = false → (AndSpecification a b).is_satisfied item = false) := by
  constructor
  · rw [and_is_satisfied, Bool.and_eq_true]
  · intro ha
    rw [and_is_satisfied, ha, Bool.false_and]

/-- C7: `ColorSpecification(c)` accepts an item exactly when its colour is `c`,
`SizeSpecification(s)` exactly when its size is `s`; the first does not look at
the name or the size, the second not at the name or the colour. -/
theorem C7_color_size_specification (item : Product) (c : Color) (s : Size) :
    ((ColorSpecification c).is_satisfied item = true ↔ item.color_ = c)
      ∧ ((SizeSpecification s).is_satisfied item = true ↔ item.size_ = s)
      ∧ (∀ (n : String) (z : Size),
          (ColorSpecification c).is_satisfied ⟨n, item.color_, z⟩
            = (ColorSpecification c).is_satisfied item)
      ∧ (∀ (n : String) (k : Color),
          (SizeSpecification s).is_satisfied ⟨n, k, item.size_⟩
            = (SizeSpecification s).is_satisfied item) := by
  refine ⟨?_, ?_, ?_, ?_⟩
  · simp [ColorSpecification]
  · simp [SizeSpecification]
  · intro n z
    rfl
  · intro n k
    rfl

/-- C9: on the six products of `main`, in order, the filter by
`ColorSpecification(Green)` returns `[p1, p3, p6]`, whose names are
`small_sofa`, `green_chair`, `big_desk`. -/
theorem C9_green_products :
    products
        = [⟨"small_sofa", Color.Green, Size.Small⟩, ⟨"big_sofa", Color.Red, Size.Large⟩,
           ⟨"green_chair", Color.Green, Size.Medium⟩, ⟨"red_chair", Color.Red, Size.Medium⟩,
           ⟨"desk", Color.Blue, Size.Medium⟩, ⟨"big_desk", Color.Green, Size.Large⟩]
      ∧ BetterProductFilter.filter products (ColorSpecification Color.Green) = [p1, p3, p6]
      ∧ (BetterProductFilter.filter products (ColorSpecification Color.Green)).map Product.name_
        = ["small_sofa", "green_chair", "big_desk"] := by
  refine ⟨rfl, ?_, ?_⟩
  · decide
  · decide

/-- C10: on `apple`, `tree`, `house`, in order, the filter by
`AndSpecification(SizeSpecification(Large), ColorSpecification(Green))`
returns the one-element list `[tree]`, whose only name is `Tree`. -/
theorem C10_large_and_green :
    all = [⟨"Apple", Color.Green, Size.Small⟩, ⟨"Tree", Color.Green, Size.Large⟩,
           ⟨"House", Color.Blue, Size.Large⟩]
      ∧ BetterProductFilter.filter all
          (AndSpecification (SizeSpecification Size.Large) (ColorSpecification Color.Green))
        = [tree]
      ∧ (BetterProductFilter.filter all
          (AndSpecification (SizeSpecification Size.Large)
            (ColorSpecification Color.Green))).map Product.name_
        = ["Tree"] := by
  refine ⟨rfl, ?_, ?_⟩
  · decide
  · decide

/-- A push-back loop guarded by a test, started from any vector `acc`, leaves
`acc` in front and appends the items passing the test, in order. -/
theorem foldl_push_eq (test : Product → Bool) (items acc : List Product) :
    items.foldl (fun result i => if test i = true then result ++ [i] else result) acc
      = acc ++ items.filter test := by
  induction items generalizing acc with
  | nil => simp
  | cons p ps ih =>
    rw [List.foldl_cons, ih]
    by_cases h : test p = true
    · simp [h]
    · simp [h]

/-- The method `ProductFilter::byColor` is the list filter by colour. -/
theorem byColor_eq (items : Items) (c : Color) :
    ProductFilter.byColor items c = items.filter (fun i => decide (i.color_ = c)) := by
  have h := foldl_push_eq (fun i => decide (i.color_ = c)) items []
  simp only [decide_eq_true_eq, List.nil_append] at h
  exact h

/-- The method `ProductFilter::bySize` is the list filter by size. -/
theorem bySize_eq (items : Items) (s : Size) :
    ProductFilter.bySize items s = items.filter (fun i => decide (i.size_ = s)) := by
  have h := foldl_push_eq (fun i => decide (i.size_ = s)) items []
  simp only [decide_eq_true_eq, List.nil_append] at h
  exact h

/-- The method `ProductFilter::byColorAndSize` is the list filter by size and
colour. -/
theorem byColorAndSize_eq (items : Items) (c : Color) (s : Size) :
    ProductFilter.byColorAndSize items c s
      = items.filter (fun i => decide (i.size_ = s) && decide (i.color_ = c)) := by
  have h := foldl_push_eq (fun i => decide (i.size_ = s) && decide (i.color_ = c)) items []
  simp only [List.nil_append] at h
  exact h

/-- C11: AND composition is commutative and associative in effect: the filter
by `AndSpecification(P, Q)` equals the filter by `AndSpecification(Q, P)`, and
the filter by `AndSpecification(AndSpecification(P, Q), R)` equals the filter
by `AndSpecification(P, AndSpecification(Q, R))`. -/
theorem C11_and_commutative_associative (S : List Product)
    (P Q R : Specification Product) :
    BetterProductFilter.filter S (AndSpecification P Q)
        = BetterProductFilter.filter S (AndSpecification Q P)
      ∧ BetterProductFilter.filter S (AndSpecification (AndSpecification P Q) R)
        = BetterProductFilter.filter S (AndSpecification P (AndSpecification Q R)) := by
  simp only [filter_eq_list_filter]
  constructor
  · apply List.filter_congr
    intro x _
    rw [and_is_satisfied, and_is_satisfied, Bool.and_comm]
  · apply List.filter_congr
    intro x _
    rw [and_is_satisfied, and_is_satisfied, and_is_satisfied, and_is_satisfied,
      Bool.and_assoc]

/-- C14: the filter of the empty sequence is the empty sequence, for every
specification; and on every input the filter returns a list, which is not
longer than the input. -/
theorem C14_filter_empty_and_length (spec : Specification Product) :
    BetterProductFilter.filter [] spec = []
      ∧ (∀ items : List Product,
          ∃ result : List Product,
            BetterProductFilter.filter items spec = result
              ∧ result.length ≤ items.length) := by
  refine ⟨rfl, ?_⟩
  intro items
  refine ⟨BetterProductFilter.filter items spec, rfl, ?_⟩
  rw [filter_eq_list_filter]
  exact List.length_filter_le _ _

/-- C17: the naive `ProductFilter` and the specification-based filter agree:
`byColor` is the filter by `ColorSpecification`, `bySize` the filter by
`SizeSpecification`, and `byColorAndSize` is the filter by
`AndSpecification(SizeSpecification(s), ColorSpecification(c))`, which is also
`byColor(bySize(items, s), c)`. -/
theorem C17_naive_and_specification_agree (items : Items) (c : Color) (s : Size) :
    ProductFilter.byColor items c
        = BetterProductFilter.filter items (ColorSpecification c)
      ∧ ProductFilter.bySize items s
        = BetterProductFilter.filter items (SizeSpecification s)
      ∧ ProductFilter.byColorAndSize items c s
        = BetterProductFilter.filter items
            (AndSpecification (SizeSpecification s) (ColorSpecification c))
      ∧ ProductFilter.byColorAndSize items c s
        = ProductFilter.byColor (ProductFilter.bySize items s) c := by
  simp only [byColor_eq, bySize_eq, byColorAndSize_eq, filter_eq_list_filter,
    List.filter_filter]
  refine ⟨rfl, rfl, rfl, ?_⟩
  apply List.filter_congr
  intro x _
  rw [Bool.and_comm]

end FilterCpp

/-! ## The HTML builder -/

namespace BuilderCpp

/-- The loop over the children appends their renderings, in order, to the
stream. -/
theorem str_loop_eq (es : List HtmlElement) (indent : Nat) (oss : String) :
    HtmlElement.str_loop es indent oss
      = oss ++ String.join (es.map (fun c => c.str (indent + 1))) := by
  induction es generalizing oss with
  | nil =>
    apply String.ext
    simp [HtmlElement.str_loop]
  | cons e es ih =>
    rw [HtmlElement.str_loop, ih]
    apply String.ext
    simp

/-- A string has positive length exactly when it is not the empty string. -/
theorem length_pos_iff (s : String) : s.length > 0 ↔ s ≠ "" := by
  rw [gt_iff_lt, String.length, List.length_pos, ne_eq, ne_eq, String.ext_iff]

/-- The rendering of a node, as one concatenation. -/
theorem str_eq (node : HtmlElement) (d : Nat) :
    node.str d =
      String.replicate (2 * d) ' ' ++ "<" ++ node.name ++ ">" ++ "\n"
        ++ (if node.text = "" then "" else
              String.replicate (2 * (d + 1)) ' ' ++ node.text ++ "\n")
        ++ String.join (node.elements.map (fun c => c.str (d + 1)))
        ++ String.replicate (2 * d) ' ' ++ "</" ++ node.name ++ ">" ++ "\n" := by
  cases node with
  | mk name text elements =>
    rw [HtmlElement.str]
    simp only [HtmlElement.name, HtmlElement.text, HtmlElement.elements, str_loop_eq,
      indent_size]
    by_cases h : text = ""
    · subst h
      apply String.ext
      simp
    · have h2 : text.length > 0 := (length_pos_iff text).2 h
      apply String.ext
      simp [h, h2]

/-- The children of the root after a chain of `add_child` calls. -/
theorem add_child_chain_root (calls : List (String × String)) (b : HtmlBuilder) :
    (add_child_chain b calls).root
      = HtmlElement.mk b.root.name b.root.text
          (b.root.elements ++ calls.map (fun c => HtmlElement.mk c.1 c.2 [])) := by
  induction calls generalizing b with
  | nil =>
    cases b with
    | mk root => cases root; simp [add_child_chain, HtmlElement.name, HtmlElement.text,
        HtmlElement.elements]
  | cons c cs ih =>
    have h := ih (b.add_child c.1 c.2)
    simp only [add_child_chain, List.foldl_cons] at h ⊢
    rw [h]
    simp [HtmlBuilder.add_child, HtmlElement.new, HtmlElement.name, HtmlElement.text,
      HtmlElement.elements]

/-- C2: for every node and every depth `d`, `node.str(d)` is the concatenation
of `2*d` spaces, `<`, the name, `>`, newline; then, only when the text is not
empty, `2*(d+1)` spaces, the text, newline; then `str(d+1)` of each child in
child order; then `2*d` spaces, `</`, the name, `>`, newline. The name and the
text are copied as they are. `HtmlBuilder::str()` is this rendering of the root
at depth 0. -/
theorem C2_str_rendering :
    (∀ (node : HtmlElement) (d : Nat),
        node.str d =
          String.replicate (2 * d) ' ' ++ "<" ++ node.name ++ ">" ++ "\n"
            ++ (if node.text = "" then "" else
                  String.replicate (2 * (d + 1)) ' ' ++ node.text ++ "\n")
            ++ String.join (node.elements.map (fun c => c.str (d + 1)))
            ++ String.replicate (2 * d) ' ' ++ "</" ++ node.name ++ ">" ++ "\n")
      ∧ (∀ b : HtmlBuilder, b.str = b.root.str 0) :=
  ⟨str_eq, fun _ => rfl⟩

/-- C4: `add_child(name, text)` appends exactly one element, the leaf with that
name, that text and no children, at the end of the root's children; the root's
name and text and every earlier child, at its position, are unchanged; and a
chain of calls on the returned handle appends the leaves in call order. -/
theorem C4_add_child_appends_leaf (b : HtmlBuilder) (name text : String) :
    (b.add_child name text).root.elements
        = b.root.elements ++ [HtmlElement.mk name text []]
      ∧ (b.add_child name text).root.name = b.root.name
      ∧ (b.add_child name text).root.text = b.root.text
      ∧ (b.add_child name text).root.elements.length = b.root.elements.length + 1
      ∧ (∀ i : Nat, i < b.root.elements.length →
          (b.add_child name text).root.elements[i]? = b.root.elements[i]?)
      ∧ (∀ (n2 t2 : String),
          ((b.add_child name text).add_child n2 t2).root.elements
            = b.root.elements ++ [HtmlElement.mk name text [], HtmlElement.mk n2 t2 []])
      ∧ (∀ calls : List (String × String),
          (add_child_chain b calls).root.elements
              = b.root.elements ++ calls.map (fun c => HtmlElement.mk c.1 c.2 [])
            ∧ (add_child_chain b calls).root.name = b.root.name
            ∧ (add_child_chain b calls).root.text = b.root.text) := by
  have h1 : (b.add_child name text).root.elements
      = b.root.elements ++ [HtmlElement.mk name text []] := rfl
  refine ⟨h1, rfl, rfl, ?_, ?_, ?_, ?_⟩
  · rw [h1]
    simp
  · intro i hi
    rw [h1, List.getElem?_append_left hi]
  · intro n2 t2
    simp [HtmlBuilder.add_child, HtmlElement.new, HtmlElement.elements]
  · intro calls
    rw [add_child_chain_root]
    exact ⟨rfl, rfl, rfl⟩

/-- C8: `HtmlBuilder("ul").add_child("li","hello").add_child("li","world").str()`
is the eight-line text below, every line ended by a newline, two spaces of
indentation per depth level. -/
theorem C8_ul_scenario :
    (((HtmlBuilder.new "ul").add_child "li" "hello").add_child "li" "world").str
        = "<ul>\n  <li>\n    hello\n  </li>\n  <li>\n    world\n  </li>\n</ul>\n"
      ∧ (((HtmlBuilder.new "ul").add_child "li" "hello").add_child "li" "world").str
        = String.join
            [ "<ul>", "\n",
              "  ", "<li>", "\n",
              "    ", "hello", "\n",
              "  ", "</li>", "\n",
              "  ", "<li>", "\n",
              "    ", "world", "\n",
              "  ", "</li>", "\n",
              "</ul>", "\n" ]
      ∧ ((((HtmlBuilder.new "ul").add_child "li" "hello").add_child "li" "world").str.data.count
          '\n') = 8 := by
  refine ⟨?_, ?_, ?_⟩
  · decide
  · decide
  · decide

mutual
/-- Induction over trees: a property holds of every node as soon as it holds of
a node whenever it holds of all its children. -/
theorem HtmlElement.tree_induction (P : HtmlElement → Prop)
    (step : ∀ (name text : String) (elements : List HtmlElement),
      (∀ c, c ∈ elements → P c) → P (.mk name text elements)) :
    ∀ node : HtmlElement, P node
  | .mk name text elements =>
    step name text elements (HtmlElement.tree_induction_list P step elements)
/-- The list form of the induction over trees. -/
theorem HtmlElement.tree_induction_list (P : HtmlElement → Prop)
    (step : ∀ (name text : String) (elements : List HtmlElement),
      (∀ c, c ∈ elements → P c) → P (.mk name text elements)) :
    ∀ (es : List HtmlElement) (c : HtmlElement), c ∈ es → P c
  | [], _, h => absurd h (List.not_mem_nil _)
  | e :: es, c, h => by
    rcases List.mem_cons.1 h with h1 | h1
    · rw [h1]
      exact HtmlElement.tree_induction P step e
    · exact HtmlElement.tree_induction_list P step es c h1
end

/-- The two append methods make the same update. -/
theorem add_child_2_eq (b : HtmlBuilder) (n t : String) :
    b.add_child_2 n t = b.add_child n t := rfl

/-- A chain through pointers reaches the same builder as a chain through
references. -/
theorem add_child_2_chain_eq (calls : List (String × String)) (b : HtmlBuilder) :
    add_child_2_chain b calls = add_child_chain b calls := rfl

/-- C12: `HtmlBuilder(r)` holds a root with name `r`, empty text and no
children, and rendering it as it is gives the opening tag line followed by the
closing tag line, with no text line. -/
theorem C12_new_builder (r : String) :
    (HtmlBuilder.new r).root = HtmlElement.mk r "" []
      ∧ (HtmlBuilder.new r).root.name = r
      ∧ (HtmlBuilder.new r).root.text = ""
      ∧ (HtmlBuilder.new r).root.elements = []
      ∧ (HtmlBuilder.new r).str = "<" ++ r ++ ">" ++ "\n" ++ "</" ++ r ++ ">" ++ "\n" := by
  refine ⟨rfl, rfl, rfl, rfl, ?_⟩
  rw [HtmlBuilder.str, str_eq]
  apply String.ext
  simp [HtmlBuilder.new, HtmlElement.new_default, HtmlElement.name, HtmlElement.text,
    HtmlElement.elements, String.replicate]

/-- C13: a call of `str()` leaves the builder as it was, so a second call on
the unmodified builder returns the same string as the first. -/
theorem C13_str_idempotent (b : HtmlBuilder) :
    (b.str_run).2 = b
      ∧ (b.str_run).2.root = b.root
      ∧ ((b.str_run).2.str_run).1 = (b.str_run).1
      ∧ (b.str_run).1 = b.str := by
  exact ⟨rfl, rfl, rfl, rfl⟩

/-- C16: rendering does not determine the tree. The builder of `ul` with the
two children `li`/`x` and `li`/`y` and the builder of `ul` with the single
child `li` whose text spells out the end of one item and the start of the next
have different lists of children, of lengths 2 and 1, and the same rendering. -/
theorem C16_rendering_not_injective :
    (((HtmlBuilder.new "ul").add_child "li" "x").add_child "li" "y").root.elements.length = 2
      ∧ ((HtmlBuilder.new "ul").add_child "li" "x\n  </li>\n  <li>\n    y").root.elements.length
        = 1
      ∧ (((HtmlBuilder.new "ul").add_child "li" "x").add_child "li" "y").root.elements
        ≠ ((HtmlBuilder.new "ul").add_child "li" "x\n  </li>\n  <li>\n    y").root.elements
      ∧ (((HtmlBuilder.new "ul").add_child "li" "x").add_child "li" "y").str
        = ((HtmlBuilder.new "ul").add_child "li" "x\n  </li>\n  <li>\n    y").str
      ∧ (∃ b1 b2 : HtmlBuilder, b1.root.elements ≠ b2.root.elements ∧ b1.str = b2.str) := by
  have hne : (((HtmlBuilder.new "ul").add_child "li" "x").add_child "li" "y").root.elements
      ≠ ((HtmlBuilder.new "ul").add_child "li" "x\n  </li>\n  <li>\n    y").root.elements := by
    intro h
    have h2 := congrArg List.length h
    revert h2
    decide
  have heq : (((HtmlBuilder.new "ul").add_child "li" "x").add_child "li" "y").str
      = ((HtmlBuilder.new "ul").add_child "li" "x\n  </li>\n  <li>\n    y").str := by
    decide
  exact ⟨by decide, by decide, hne, heq, _, _, hne, heq⟩

/-- C18: for every root name and every sequence of (name, text) pairs, the
builder made by `HtmlBuilder(r)` and extended by `add_child` for each pair in
order, and the builder made by `HtmlElement::build(r)` and extended by
`add_child_2` for each pair in order, have the same root (name, text and
children) and the same `str()` output. -/
theorem C18_reference_and_pointer_builders (r : String) (calls : List (String × String)) :
    (add_child_chain (HtmlBuilder.new r) calls).root
        = (add_child_2_chain (HtmlElement.build r) calls).root
      ∧ (add_child_chain (HtmlBuilder.new r) calls).root.name
        = (add_child_2_chain (HtmlElement.build r) calls).root.name
      ∧ (add_child_chain (HtmlBuilder.new r) calls).root.text
        = (add_child_2_chain (HtmlElement.build r) calls).root.text
      ∧ (add_child_chain (HtmlBuilder.new r) calls).root.elements
        = (add_child_2_chain (HtmlElement.build r) calls).root.elements
      ∧ (add_child_chain (HtmlBuilder.new r) calls).str
        = (add_child_2_chain (HtmlElement.build r) calls).str
      ∧ (add_child_2_chain (HtmlElement.build r) calls).root
        = HtmlElement.mk r "" (calls.map (fun c => HtmlElement.mk c.1 c.2 [])) := by
  have h : add_child_2_chain (HtmlElement.build r) calls
      = add_child_chain (HtmlBuilder.new r) calls := rfl
  rw [h]
  refine ⟨rfl, rfl, rfl, rfl, rfl, ?_⟩
  rw [add_child_chain_root]
  rfl

/-- A tree of a list is not higher than the list. -/
theorem height_le_height_list (es : List HtmlElement) (c : HtmlElement) (h : c ∈ es) :
    c.height ≤ HtmlElement.height_list es := by
  induction es with
  | nil => exact absurd h (List.not_mem_nil _)
  | cons e es ih =>
    rw [HtmlElement.height_list]
    rcases List.mem_cons.1 h with h1 | h1
    · rw [h1]
      exact le_max_left _ _
    · exact le_trans (ih h1) (le_max_right _ _)

/-- A child is strictly lower than its parent. -/
theorem height_child_lt (node c : HtmlElement) (h : c ∈ node.elements) :
    c.height < node.height := by
  cases node with
  | mk name text elements =>
    rw [HtmlElement.height]
    exact Nat.lt_succ_of_le (height_le_height_list elements c h)

/-- The bounded loop returns what the loop returns when every nested call
returns within the bound. -/
theorem str_loop_fuel_eq (fuel : Nat) (es : List HtmlElement) (indent : Nat)
    (h : ∀ c, c ∈ es → c.str_fuel fuel (indent + 1) = some (c.str (indent + 1)))
    (oss : String) :
    HtmlElement.str_loop_fuel fuel es indent oss
      = some (HtmlElement.str_loop es indent oss) := by
  induction es generalizing oss with
  | nil => rfl
  | cons e es ih =>
    rw [HtmlElement.str_loop_fuel, h e (List.mem_cons_self _ _)]
    simp only
    rw [ih (fun c hc => h c (List.mem_cons_of_mem _ hc)), HtmlElement.str_loop]

/-- With a bound at least the height of the tree, the bounded rendering
returns the rendering. -/
theorem str_fuel_eq (node : HtmlElement) :
    ∀ (k d : Nat), node.str_fuel (node.height + k) d = some (node.str d) := by
  induction node using HtmlElement.tree_induction with
  | step name text elements ih =>
    intro k d
    have hf : (HtmlElement.mk name text elements).height + k
        = (HtmlElement.height_list elements + k) + 1 := by
      rw [HtmlElement.height]
      omega
    rw [hf, HtmlElement.str_fuel, HtmlElement.str]
    have hloop : ∀ oss : String,
        HtmlElement.str_loop_fuel (HtmlElement.height_list elements + k) elements d oss
          = some (HtmlElement.str_loop elements d oss) := by
      intro oss
      apply str_loop_fuel_eq
      intro c hc
      have hle := height_le_height_list elements c hc
      have hk : HtmlElement.height_list elements + k
          = c.height + (HtmlElement.height_list elements - c.height + k) := by omega
      rw [hk]
      exact ih c hc _ _
    simp only [hloop]

/-- C15: rendering is total. Every recursive call of `HtmlElement::str` is made
on a child, which is a strictly lower tree; so for every tree and every depth
the recursion, nested no deeper than the height of the tree, returns a string,
the value of `str`. -/
theorem C15_rendering_total :
    (∀ node c : HtmlElement, c ∈ node.elements → c.height < node.height)
      ∧ (∀ (node : HtmlElement) (d : Nat),
          node.str_fuel node.height d = some (node.str d))
      ∧ (∀ (node : HtmlElement) (d k : Nat),
          node.str_fuel (node.height + k) d = some (node.str d))
      ∧ (∀ (node : HtmlElement) (d : Nat), ∃ s : String, node.str d = s) := by
  refine ⟨height_child_lt, ?_, ?_, ?_⟩
  · intro node d
    exact str_fuel_eq node 0 d
  · intro node d k
    exact str_fuel_eq node k d
  · intro node d
    exact ⟨node.str d, rfl⟩

/-- The leaf a call appends. -/
theorem perform_root (b : HtmlBuilder) (call : BuilderCall) :
    ∃ n t : String,
      (b.perform call).root
        = HtmlElement.mk b.root.name b.root.text (b.root.elements ++ [HtmlElement.mk n t []]) := by
  cases call with
  | add_child n t => exact ⟨n, t, rfl⟩
  | add_child_2 n t => exact ⟨n, t, rfl⟩

/-- A sequence of calls keeps the name and the text of the root and appends one
leaf per call. -/
theorem foldl_perform_root (calls : List BuilderCall) (b : HtmlBuilder) :
    ∃ leaves : List HtmlElement,
      leaves.length = calls.length
        ∧ (∀ c, c ∈ leaves → c.elements = [])
        ∧ (calls.foldl HtmlBuilder.perform b).root
          = HtmlElement.mk b.root.name b.root.text (b.root.elements ++ leaves) := by
  induction calls generalizing b with
  | nil =>
    refine ⟨[], rfl, fun c hc => absurd hc (List.not_mem_nil _), ?_⟩
    cases b with
    | mk root => cases root; simp [HtmlElement.name, HtmlElement.text, HtmlElement.elements]
  | cons call calls ih =>
    obtain ⟨n, t, h1⟩ := perform_root b call
    obtain ⟨leaves, hlen, hleaf, hroot⟩ := ih (b.perform call)
    refine ⟨HtmlElement.mk n t [] :: leaves, by simp [hlen], ?_, ?_⟩
    · intro c hc
      rcases List.mem_cons.1 hc with h | h
      · rw [h]
        rfl
      · exact hleaf c h
    · rw [List.foldl_cons, hroot, h1]
      simp [HtmlElement.name, HtmlElement.text, HtmlElement.elements]

mutual
/-- The writes of `str`, concatenated, are the string `str` returns. -/
theorem join_str_emissions :
    ∀ (node : HtmlElement) (d : Nat), String.join (node.str_emissions d) = node.str d
  | .mk name text elements, d => by
    rw [HtmlElement.str_emissions, HtmlElement.str, str_loop_eq,
      ← join_str_emissions_loop elements d]
    by_cases h : text.length > 0
    · apply String.ext
      simp [h]
    · apply String.ext
      simp [h]
/-- The writes of the loop, concatenated, are the renderings of the children. -/
theorem join_str_emissions_loop :
    ∀ (es : List HtmlElement) (d : Nat),
      String.join (HtmlElement.str_emissions_loop es d)
        = String.join (es.map (fun c => c.str (d + 1)))
  | [], _ => rfl
  | e :: es, d => by
    have h1 := join_str_emissions e (d + 1)
    have h2 := join_str_emissions_loop es d
    rw [HtmlElement.str_emissions_loop]
    apply String.ext
    rw [String.ext_iff] at h1 h2
    simp only [String.data_join, List.map_append, List.flatten_append, List.map_cons,
      List.flatten_cons] at h1 h2 ⊢
    rw [h1, h2]
end

mutual
/-- Every write of `str` ends with the newline of its `std::endl`. -/
theorem str_emissions_end :
    ∀ (node : HtmlElement) (d : Nat) (e : String),
      e ∈ node.str_emissions d → ∃ body : String, e = body ++ "\n"
  | .mk name text elements, d, e, h => by
    rw [HtmlElement.str_emissions] at h
    simp only [List.mem_append, List.mem_singleton] at h
    rcases h with ((h | h) | h) | h
    · exact ⟨_, h⟩
    · by_cases ht : text.length > 0
      · rw [if_pos ht, List.mem_singleton] at h
        exact ⟨_, h⟩
      · rw [if_neg ht] at h
        exact absurd h (List.not_mem_nil _)
    · exact str_emissions_loop_end elements d e h
    · exact ⟨_, h⟩
/-- Every write of the loop ends with a newline. -/
theorem str_emissions_loop_end :
    ∀ (es : List HtmlElement) (d : Nat) (e : String),
      e ∈ HtmlElement.str_emissions_loop es d → ∃ body : String, e = body ++ "\n"
  | [], _, e, h => absurd h (List.not_mem_nil _)
  | c :: cs, d, e, h => by
    rw [HtmlElement.str_emissions_loop, List.mem_append] at h
    rcases h with h | h
    · exact str_emissions_end c (d + 1) e h
    · exact str_emissions_loop_end cs d e h
end

/-- The number of writes the loop makes over a list of leaves: two per leaf,
and one more for each leaf with a text. -/
theorem length_emissions_loop_leaves (es : List HtmlElement) (d : Nat)
    (hleaf : ∀ c, c ∈ es → c.elements = []) :
    (HtmlElement.str_emissions_loop es d).length
      = 2 * es.length + (es.filter (fun c => decide (c.text ≠ ""))).length := by
  induction es with
  | nil => rfl
  | cons e es ih =>
    have he := hleaf e (List.mem_cons_self _ _)
    have ih2 := ih (fun c hc => hleaf c (List.mem_cons_of_mem _ hc))
    cases e with
    | mk name text elements =>
      simp only [HtmlElement.elements] at he
      subst he
      rw [HtmlElement.str_emissions_loop, HtmlElement.str_emissions, List.length_append, ih2]
      by_cases ht : text = ""
      · subst ht
        simp [HtmlElement.str_emissions_loop, HtmlElement.text]
        omega
      · have h2 : text.length > 0 := (length_pos_iff text).2 ht
        simp [HtmlElement.str_emissions_loop, HtmlElement.text, ht, h2]
        omega

/-- A character that occurs once in every string of a list occurs in their
concatenation as many times as the list is long. -/
theorem count_join_of_forall (c : Char) (l : List String)
    (h : ∀ e, e ∈ l → e.data.count c = 1) :
    (String.join l).data.count c = l.length := by
  induction l with
  | nil => rfl
  | cons e l ih =>
    rw [String.data_join, List.map_cons, List.flatten_cons, List.count_append,
      ← String.data_join, ih (fun x hx => h x (List.mem_cons_of_mem _ hx)),
      h e (List.mem_cons_self _ _), List.length_cons]
    omega

/-- A tag line or a text line holds one newline when its variable part holds
none. -/
theorem count_newline_line (k : Nat) (a s b : String) (hs : '\n' ∉ s.data)
    (ha : '\n' ∉ a.data) (hb : '\n' ∉ b.data) :
    (String.replicate k ' ' ++ a ++ s ++ b ++ "\n").data.count '\n' = 1 := by
  simp only [String.data_append, List.count_append, String.replicate]
  rw [List.count_eq_zero_of_not_mem hs, List.count_eq_zero_of_not_mem ha,
    List.count_eq_zero_of_not_mem hb, List.count_replicate]
  have h1 : (' ' == '\n') = false := by decide
  have h2 : List.count '\n' "\n".data = 1 := by decide
  rw [h1, h2]
  rfl

mutual
/-- In a tree free of newline characters every write of `str` holds exactly one
newline, the one of its `std::endl`. -/
theorem str_emissions_one_newline :
    ∀ (node : HtmlElement) (d : Nat), node.newline_free = true →
      ∀ e : String, e ∈ node.str_emissions d → e.data.count '\n' = 1
  | .mk name text elements, d, hfree, e, h => by
    rw [HtmlElement.newline_free] at hfree
    simp only [Bool.and_eq_true, decide_eq_true_eq] at hfree
    obtain ⟨⟨hn, ht⟩, hes⟩ := hfree
    rw [HtmlElement.str_emissions] at h
    simp only [List.mem_append, List.mem_singleton] at h
    rcases h with ((h | h) | h) | h
    · rw [h]
      exact count_newline_line _ "<" name ">" hn (by decide) (by decide)
    · by_cases hl : text.length > 0
      · rw [if_pos hl, List.mem_singleton] at h
        rw [h]
        have := count_newline_line (indent_size * (d + 1)) "" text "" ht (by decide) (by decide)
        simpa using this
      · rw [if_neg hl] at h
        exact absurd h (List.not_mem_nil _)
    · exact str_emissions_loop_one_newline elements d hes e h
    · rw [h]
      exact count_newline_line _ "</" name ">" hn (by decide) (by decide)
/-- The same for the writes of the loop. -/
theorem str_emissions_loop_one_newline :
    ∀ (es : List HtmlElement) (d : Nat), HtmlElement.newline_free_list es = true →
      ∀ e : String, e ∈ HtmlElement.str_emissions_loop es d → e.data.count '\n' = 1
  | [], _, _, e, h => absurd h (List.not_mem_nil _)
  | c :: cs, d, hfree, e, h => by
    rw [HtmlElement.newline_free_list, Bool.and_eq_true] at hfree
    rw [HtmlElement.str_emissions_loop, List.mem_append] at h
    rcases h with h | h
    · exact str_emissions_one_newline c (d + 1) hfree.1 e h
    · exact str_emissions_loop_one_newline cs d hfree.2 e h
end

/-- C19: in every builder reached from `HtmlBuilder(r)` by a sequence of
`add_child` / `add_child_2` calls, the root has name `r` and empty text, every
child of the root is a leaf, and there are as many children as calls. The
rendering of such a builder is made of exactly `2 + 2*n + k` writes, each ended
by a newline, `n` being the number of children and `k` the number of children
with a non-empty text; when no name and no text holds a newline character, that
is also the number of newline characters of the rendering. -/
theorem C19_builder_invariant (r : String) (calls : List BuilderCall) :
    (reached r calls).root.name = r
      ∧ (reached r calls).root.text = ""
      ∧ (∀ c, c ∈ (reached r calls).root.elements → c.elements = [])
      ∧ (reached r calls).root.elements.length = calls.length
      ∧ String.join ((reached r calls).root.str_emissions 0) = (reached r calls).str
      ∧ (∀ e, e ∈ (reached r calls).root.str_emissions 0 → ∃ body : String, e = body ++ "\n")
      ∧ ((reached r calls).root.str_emissions 0).length
        = 2 + 2 * (reached r calls).root.elements.length
          + ((reached r calls).root.elements.filter (fun c => decide (c.text ≠ ""))).length
      ∧ ((reached r calls).root.newline_free = true →
          (reached r calls).str.data.count '\n'
            = 2 + 2 * (reached r calls).root.elements.length
              + ((reached r calls).root.elements.filter
                  (fun c => decide (c.text ≠ ""))).length) := by
  obtain ⟨leaves, hlen, hleaf, hroot⟩ := foldl_perform_root calls (HtmlBuilder.new r)
  have hroot2 : (reached r calls).root = HtmlElement.mk r "" leaves := by
    rw [reached, hroot]
    simp [HtmlBuilder.new, HtmlElement.new_default, HtmlElement.name, HtmlElement.text,
      HtmlElement.elements]
  have hcount : ((reached r calls).root.str_emissions 0).length
      = 2 + 2 * (reached r calls).root.elements.length
        + ((reached r calls).root.elements.filter (fun c => decide (c.text ≠ ""))).length := by
    rw [hroot2, HtmlElement.str_emissions]
    simp only [HtmlElement.elements, List.length_append, List.length_singleton,
      length_emissions_loop_leaves leaves 0 hleaf]
    simp
    omega
  refine ⟨?_, ?_, ?_, ?_, ?_, ?_, hcount, ?_⟩
  · rw [hroot2]
    rfl
  · rw [hroot2]
    rfl
  · rw [hroot2]
    exact hleaf
  · rw [hroot2]
    exact hlen
  · exact join_str_emissions _ 0
  · exact str_emissions_end _ 0
  · intro hfree
    rw [← hcount, HtmlBuilder.str, ← join_str_emissions]
    exact count_join_of_forall '\n' _ (str_emissions_one_newline _ 0 hfree)

/-- Inside a line, the characters up to and including the newline are copied. -/
theorem indent_chars_inside (k : Nat) (l rest : List Char) (hl : '\n' ∉ l) :
    indent_chars k false (l ++ '\n' :: rest) = l ++ '\n' :: indent_chars k true rest := by
  induction l with
  | nil => simp [indent_chars]
  | cons c l ih =>
    have hc : (c == '\n') = false := by
      rw [beq_eq_false_iff_ne]
      intro h
      exact hl (h ▸ List.mem_cons_self _ _)
    have hl2 : '\n' ∉ l := fun h => hl (List.mem_cons_of_mem _ h)
    simp [indent_chars, hc, ih hl2]

/-- At the start of a line, the spaces come first, then the line. -/
theorem indent_chars_line (k : Nat) (l rest : List Char) (hl : '\n' ∉ l) :
    indent_chars k true (l ++ '\n' :: rest)
      = List.replicate k ' ' ++ (l ++ '\n' :: indent_chars k true rest) := by
  cases l with
  | nil => simp [indent_chars]
  | cons c l =>
    have hc : (c == '\n') = false := by
      rw [beq_eq_false_iff_ne]
      intro h
      exact hl (h ▸ List.mem_cons_self _ _)
    have hl2 : '\n' ∉ l := fun h => hl (List.mem_cons_of_mem _ h)
    simp [indent_chars, hc, indent_chars_inside k l rest hl2]

/-- Indenting a text made of newline-terminated lines indents each line. -/
theorem indent_lines_join (k : Nat) (lines : List String)
    (h : ∀ l, l ∈ lines → '\n' ∉ l.data) :
    indent_lines k (String.join (lines.map (fun l => l ++ "\n")))
      = String.join (lines.map (fun l => String.replicate k ' ' ++ l ++ "\n")) := by
  apply String.ext
  simp only [indent_lines]
  induction lines with
  | nil => simp [indent_chars]
  | cons l ls ih =>
    have ih2 := ih (fun x hx => h x (List.mem_cons_of_mem _ hx))
    have hl := h l (List.mem_cons_self _ _)
    simp only [String.data_join, List.map_cons, List.flatten_cons, String.data_append,
      List.map_map] at ih2 ⊢
    rw [List.append_assoc, List.singleton_append, indent_chars_line k _ _ hl, ih2]
    simp [String.replicate]

/-- Two more spaces of indentation are two spaces in front of the line. -/
theorem replicate_succ_append (d : Nat) (l : String) :
    String.replicate (2 * (d + 1)) ' ' ++ l = String.replicate (2 * d) ' ' ++ ("  " ++ l) := by
  apply String.ext
  have h : 2 * (d + 1) = 2 * d + 2 := by omega
  simp only [String.data_append, String.replicate, h, List.replicate_add,
    List.append_assoc]
  rfl

/-- A line with two more spaces in front holds no newline when the line holds
none. -/
theorem not_mem_two_spaces (l : String) (h : '\n' ∉ l.data) : '\n' ∉ ("  " ++ l).data := by
  rw [String.data_append, List.mem_append]
  rintro (h1 | h1)
  · revert h1
    decide
  · exact h h1

/-- A tag holds no newline when the name holds none. -/
theorem not_mem_tag (a name b : String) (hn : '\n' ∉ name.data) (ha : '\n' ∉ a.data)
    (hb : '\n' ∉ b.data) : '\n' ∉ (a ++ name ++ b).data := by
  simp only [String.data_append, List.mem_append]
  rintro ((h | h) | h)
  · exact ha h
  · exact hn h
  · exact hb h

mutual
/-- The rendering of a tree free of newline characters is a list of lines, the
same at every depth, each with the indentation of the depth in front. -/
theorem str_lines :
    ∀ node : HtmlElement, node.newline_free = true →
      ∃ lines : List String,
        (∀ l, l ∈ lines → '\n' ∉ l.data)
          ∧ ∀ d : Nat, node.str d
              = String.join (lines.map (fun l => String.replicate (2 * d) ' ' ++ l ++ "\n"))
  | .mk name text elements, hfree => by
    rw [HtmlElement.newline_free] at hfree
    simp only [Bool.and_eq_true, decide_eq_true_eq] at hfree
    obtain ⟨⟨hn, ht⟩, hes⟩ := hfree
    obtain ⟨ls, hls, hstr⟩ := str_lines_list elements hes
    refine ⟨["<" ++ name ++ ">"] ++ (if text = "" then [] else ["  " ++ text]) ++ ls
        ++ ["</" ++ name ++ ">"], ?_, ?_⟩
    · intro l hl
      simp only [List.mem_append, List.mem_singleton] at hl
      rcases hl with ((h | h) | h) | h
      · rw [h]
        exact not_mem_tag "<" name ">" hn (by decide) (by decide)
      · by_cases hte : text = ""
        · rw [if_pos hte] at h
          exact absurd h (List.not_mem_nil _)
        · rw [if_neg hte, List.mem_singleton] at h
          rw [h]
          exact not_mem_two_spaces text ht
      · exact hls l h
      · rw [h]
        exact not_mem_tag "</" name ">" hn (by decide) (by decide)
    · intro d
      rw [str_eq]
      simp only [HtmlElement.name, HtmlElement.text, HtmlElement.elements, hstr d]
      by_cases hte : text = ""
      · apply String.ext
        simp [hte]
      · apply String.ext
        simp [hte, replicate_succ_append]
/-- The renderings of the children, one level deeper, as a list of lines. -/
theorem str_lines_list :
    ∀ es : List HtmlElement, HtmlElement.newline_free_list es = true →
      ∃ lines : List String,
        (∀ l, l ∈ lines → '\n' ∉ l.data)
          ∧ ∀ d : Nat, String.join (es.map (fun c => c.str (d + 1)))
              = String.join (lines.map (fun l => String.replicate (2 * d) ' ' ++ l ++ "\n"))
  | [], _ => ⟨[], fun l hl => absurd hl (List.not_mem_nil _), fun _ => rfl⟩
  | e :: es, hfree => by
    rw [HtmlElement.newline_free_list, Bool.and_eq_true] at hfree
    obtain ⟨le, hle, hse⟩ := str_lines e hfree.1
    obtain ⟨ls, hls, hss⟩ := str_lines_list es hfree.2
    refine ⟨le.map (fun l => "  " ++ l) ++ ls, ?_, ?_⟩
    · intro l hl
      rcases List.mem_append.1 hl with h | h
      · obtain ⟨x, hx, hxl⟩ := List.mem_map.1 h
        rw [← hxl]
        exact not_mem_two_spaces x (hle x hx)
      · exact hls l h
    · intro d
      have h1 := hse (d + 1)
      have h2 := hss d
      apply String.ext
      rw [String.ext_iff] at h1 h2
      simp only [String.data_join, List.map_cons, List.flatten_cons, List.map_append,
        List.flatten_append, List.map_map] at h1 h2 ⊢
      rw [h1, h2]
      congr 2
      apply List.map_congr_left
      intro x _
      simp only [Function.comp_apply, replicate_succ_append]
end

/-- C20: indentation is uniform in depth. For a tree whose names and texts hold
no newline character, `node.str(d)` is `node.str(0)` with exactly `2*d` spaces
put in front of each of its newline-terminated lines: the same lines, in the
same number, after the added spaces. -/
theorem C20_indentation_uniform (node : HtmlElement) (hfree : node.newline_free = true)
    (d : Nat) :
    node.str d = indent_lines (2 * d) (node.str 0)
      ∧ ∃ lines : List String,
          (∀ l, l ∈ lines → '\n' ∉ l.data)
            ∧ node.str 0 = String.join (lines.map (fun l => l ++ "\n"))
            ∧ node.str d
              = String.join (lines.map (fun l => String.replicate (2 * d) ' ' ++ l ++ "\n")) := by
  obtain ⟨lines, hlines, hstr⟩ := str_lines node hfree
  have h0 : node.str 0 = String.join (lines.map (fun l => l ++ "\n")) := by
    rw [hstr 0]
    rfl
  refine ⟨?_, lines, hlines, h0, hstr d⟩
  rw [h0, indent_lines_join _ _ hlines, hstr d]

/-- C20 at the tree `ul` with an item `li`/`hello` holding a nested `b`/`x`, at
depth 2. -/
theorem C20_indentation_uniform_witness :
    (HtmlElement.mk "ul" "" [.mk "li" "hello" [.mk "b" "x" []], .mk "li" "" []]).newline_free
        = true
      ∧ ((HtmlElement.mk "ul" "" [.mk "li" "hello" [.mk "b" "x" []], .mk "li" "" []]).str 2
          = indent_lines (2 * 2)
              ((HtmlElement.mk "ul" "" [.mk "li" "hello" [.mk "b" "x" []], .mk "li" "" []]).str 0)
        ∧ ∃ lines : List String,
            (∀ l, l ∈ lines → '\n' ∉ l.data)
              ∧ (HtmlElement.mk "ul" "" [.mk "li" "hello" [.mk "b" "x" []], .mk "li" "" []]).str 0
                = String.join (lines.map (fun l => l ++ "\n"))
              ∧ (HtmlElement.mk "ul" "" [.mk "li" "hello" [.mk "b" "x" []], .mk "li" "" []]).str 2
                = String.join
                    (lines.map (fun l => String.replicate (2 * 2) ' ' ++ l ++ "\n"))) :=
  ⟨by decide,
    C20_indentation_uniform
      (HtmlElement.mk "ul" "" [.mk "li" "hello" [.mk "b" "x" []], .mk "li" "" []])
      (by decide) 2⟩

end BuilderCpp
